import Mathlib


namespace Imperat

/-! ## Definitions (shallow embedding of the source) -/

/-- Embeds `builder::Error` (src/imperat/src/builder/mod.rs lines 15-27). -/
inductive Error (E : Type) where
  | DepResolution (name : String)
  | AddDep (typeId : Nat)
  | Step (name : String) (cause : E)
  | UnknownStep (name : String)
  | Group (name : String) (cause : E)
  deriving DecidableEq, Repr

/-- Embeds `TypeMap` (src/imperat-common/src/dependencies.rs): a map from type
identity to one owned value. -/
structure TypeMap (V : Type) where
  bindings : List (Nat × V)
  deriving DecidableEq, Repr

/-- Embeds `TypeMap::get`. -/
def TypeMap.get {V : Type} (tm : TypeMap V) (t : Nat) : Option V :=
  (tm.bindings.find? (fun p => p.1 == t)).map (·.2)

/-- Embeds `TypeMap::bind` (HashMap::insert): replaces the value for an
existing key, otherwise adds the entry. -/
def TypeMap.bind {V : Type} (tm : TypeMap V) (t : Nat) (v : V) : TypeMap V :=
  if tm.bindings.any (fun p => p.1 == t) then
    ⟨tm.bindings.map (fun p => if p.1 == t then (t, v) else p)⟩
  else
    ⟨tm.bindings ++ [(t, v)]⟩

/-- Embeds `Step` (src/imperat/src/builder/step.rs lines 10-14): a named
deferred computation, modelled by its eventual result. -/
structure Step (O : Type) where
  name : String
  fut : O
  deriving DecidableEq, Repr

/-- Embeds `CallbackKind` (step.rs lines 44-50); the closure is identified by
an id. -/
inductive CallbackKind where
  | BeforeStep (id : Nat)
  | AfterStep (id : Nat)
  deriving DecidableEq, Repr

/-- Embeds `GroupOptions` (step.rs lines 24-38). -/
structure GroupOptions where
  parallel : Bool
  tolerate_failure : Bool
  callbacks : List CallbackKind
  deriving DecidableEq, Repr

/-- Embeds `GroupOptions::default`. -/
def GroupOptions.init : GroupOptions :=
  { parallel := false, tolerate_failure := false, callbacks := [] }

/-- Embeds `Group` (step.rs lines 64-70).  The `tm` and `errors` Arc handles are
shared with the builder and threaded explicitly through the operations. -/
structure Group (O : Type) where
  steps : List (Step O)
  opts : GroupOptions
  deriving DecidableEq, Repr

/-- Embeds `Group::new` (step.rs lines 73-80). -/
def Group.init {O : Type} : Group O :=
  { steps := [], opts := GroupOptions.init }

/-- Embeds `Group::add_step` (step.rs lines 92-108): dependency resolution is
attempted against the current type map; on failure a `DepResolution`
error is pushed on the shared error list and no step is created.
`deps` is the list of type ids the step's argument tuple declares
(`FromTypeMap` for a tuple succeeds iff every component resolves);
`out` is the value the registered callable eventually produces. -/
def Group.add_step {O V E : Type} (g : Group O) (tm : TypeMap V)
    (errors : List (Error E)) (name : String) (deps : List Nat) (out : O) :
    Group O × List (Error E) :=
  if deps.all (fun t => (tm.get t).isSome) then
    ({ g with steps := g.steps ++ [{ name := name, fut := out }] }, errors)
  else
    (g, errors ++ [Error.DepResolution name])

/-- Embeds `Group::add_callback` (step.rs lines 111-113). -/
def Group.add_callback {O : Type} (g : Group O) (cb : CallbackKind) : Group O :=
  { g with opts := { g.opts with callbacks := g.opts.callbacks ++ [cb] } }

/-- Observable engine events: which callbacks are invoked on which step,
and which step computations are driven. -/
inductive Event (O : Type) where
  | before (cb : Nat) (stepName : String)
  | run (stepName : String)
  | after (cb : Nat) (stepName : String) (res : O)
  deriving DecidableEq, Repr

/-- The `BeforeStep` callback invocations of the `exec_step` closure
(step.rs lines 127-131): every callback of the list, in order, filtered
to the before kind. -/
def beforeEvents {O : Type} (cbs : List CallbackKind) (s : Step O) : List (Event O) :=
  cbs.filterMap fun cb =>
    match cb with
    | CallbackKind.BeforeStep i => some (Event.before i s.name)
    | CallbackKind.AfterStep _ => none

/-- The `AfterStep` callback invocations of the `exec_step` closure
(step.rs lines 134-138). -/
def afterEvents {O : Type} (cbs : List CallbackKind) (name : String) (res : O) :
    List (Event O) :=
  cbs.filterMap fun cb =>
    match cb with
    | CallbackKind.BeforeStep _ => none
    | CallbackKind.AfterStep i => some (Event.after i name res)

/-- Embeds `exec_step` (step.rs lines 126-140): run the before callbacks, drive
the future, run the after callbacks; returns the trace and the result. -/
def exec_step {O : Type} (s : Step O) (cbs : List CallbackKind) :
    List (Event O) × O :=
  (beforeEvents cbs s ++ [Event.run s.name] ++ afterEvents cbs s.name s.fut, s.fut)

/-- The event trace of executing one step with a callback list. -/
def stepTrace {O : Type} (s : Step O) (cbs : List CallbackKind) : List (Event O) :=
  (exec_step s cbs).1

/-- Embeds `HashMap::insert` on the result map: replace the value of an
existing key, otherwise add the pair. -/
def mapInsert {O : Type} (m : List (String × O)) (k : String) (v : O) :
    List (String × O) :=
  if m.any (fun p => p.1 == k) then
    m.map (fun p => if p.1 == k then (k, v) else p)
  else
    m ++ [(k, v)]

/-- Lookup in the result map. -/
def mapLookup {O : Type} (m : List (String × O)) (k : String) : Option O :=
  (m.find? (fun p => p.1 == k)).map (·.2)

/-- Embeds `collect::<HashMap<_,_>>()` over a sequence of pairs: insert each in
order, so a later pair with the same key overwrites an earlier one. -/
def collectMap {O : Type} (ps : List (String × O)) : List (String × O) :=
  ps.foldl (fun m p => mapInsert m p.1 p.2) []

/-- Embeds `FuturesOrdered` collection: the computations finish in order `σ`
(a permutation of the indices); completed items are buffered by their
original index and re-emitted in ascending index order. -/
def futuresOrdered {α : Type} (xs : List α) (σ : List Nat) : List α :=
  (List.insertionSort (· ≤ ·) σ).filterMap (fun i => xs[i]?)

/-- The sequential loop of `Group::execute` (step.rs lines 155-170). -/
def seqLoop {O E : Type} (succ : O → Bool) (err : O → Option E)
    (cbs : List CallbackKind) (tolerate : Bool) :
    List (Step O) → List (String × O) → List (Event O) →
    List (Event O) × Except (Error E) (List (String × O))
  | [], outputs, tr => (tr, Except.ok outputs)
  | s :: rest, outputs, tr =>
    let r := (exec_step s cbs).2
    let tr' := tr ++ stepTrace s cbs
    if tolerate then
      seqLoop succ err cbs tolerate rest (mapInsert outputs s.name r) tr'
    else if succ r then
      seqLoop succ err cbs tolerate rest (mapInsert outputs s.name r) tr'
    else
      match err r with
      | some e => (tr', Except.error (Error.Step s.name e))
      | none => (tr', Except.error (Error.UnknownStep s.name))

/-- Embeds `Group::execute` (step.rs lines 123-173).  `σ` is the completion
order of the launched computations when the group is parallel (it is
ignored for a sequential group). -/
def Group.execute {O E : Type} (g : Group O) (succ : O → Bool)
    (err : O → Option E) (σ : List Nat) :
    List (Event O) × Except (Error E) (List (String × O)) :=
  let cbs := g.opts.callbacks
  if g.opts.parallel then
    ((σ.filterMap (fun i => g.steps[i]?)).flatMap (fun s => stepTrace s cbs),
     Except.ok (collectMap (futuresOrdered (g.steps.map fun s => (s.name, s.fut)) σ)))
  else
    seqLoop succ err cbs g.opts.tolerate_failure g.steps [] []

/-- Embeds `GroupBuilder` (step.rs line 177): wraps the group being built plus
the shared type map and error list handles. -/
structure GroupBuilder (O V E : Type) where
  tm : TypeMap V
  g : Group O
  errors : List (Error E)
  deriving DecidableEq, Repr

/-- Embeds `GroupBuilder::new` (step.rs lines 180-182). -/
def GroupBuilder.init {O V E : Type} (tm : TypeMap V) (errors : List (Error E)) :
    GroupBuilder O V E :=
  { tm := tm, g := Group.init, errors := errors }

/-- Embeds `GroupBuilder::add_step` (step.rs lines 185-192). -/
def GroupBuilder.add_step {O V E : Type} (gb : GroupBuilder O V E)
    (name : String) (deps : List Nat) (out : O) : GroupBuilder O V E :=
  let (g', es') := gb.g.add_step gb.tm gb.errors name deps out
  { gb with g := g', errors := es' }

/-- Embeds `GroupBuilder::tolerate_failure` (step.rs lines 203-206). -/
def GroupBuilder.tolerate_failure {O V E : Type} (gb : GroupBuilder O V E) :
    GroupBuilder O V E :=
  { gb with g := { gb.g with opts := { gb.g.opts with tolerate_failure := true } } }

/-- Embeds `GroupBuilder::parallel` (step.rs lines 197-200): sets the parallel
flag and then also `tolerate_failure`. -/
def GroupBuilder.parallel {O V E : Type} (gb : GroupBuilder O V E) :
    GroupBuilder O V E :=
  GroupBuilder.tolerate_failure
    { gb with g := { gb.g with opts := { gb.g.opts with parallel := true } } }

/-- Embeds `GroupBuilder::before_step` (step.rs lines 209-215). -/
def GroupBuilder.before_step {O V E : Type} (gb : GroupBuilder O V E) (id : Nat) :
    GroupBuilder O V E :=
  { gb with g := gb.g.add_callback (CallbackKind.BeforeStep id) }

/-- Embeds `GroupBuilder::after_step` (step.rs lines 218-224). -/
def GroupBuilder.after_step {O V E : Type} (gb : GroupBuilder O V E) (id : Nat) :
    GroupBuilder O V E :=
  { gb with g := gb.g.add_callback (CallbackKind.AfterStep id) }

/-- Embeds `ImperativeStepBuilder` (mod.rs lines 40-45): the type map, the
default group, the explicit groups and the accumulated build errors. -/
structure ImperativeStepBuilder (O V E : Type) where
  tm : TypeMap V
  default : Group O
  groups : List (Group O)
  errors : List (Error E)
  deriving DecidableEq, Repr

/-- Embeds `ImperativeStepBuilder::default` via `new` (mod.rs lines 34-36, 57-68). -/
def ImperativeStepBuilder.init {O V E : Type} : ImperativeStepBuilder O V E :=
  { tm := ⟨[]⟩, default := Group.init, groups := [], errors := [] }

/-- Embeds `ImperativeStepBuilder::add_step` (mod.rs lines 75-82): registers on
the default group. -/
def ImperativeStepBuilder.add_step {O V E : Type} (b : ImperativeStepBuilder O V E)
    (name : String) (deps : List Nat) (out : O) : ImperativeStepBuilder O V E :=
  let (d', es') := b.default.add_step b.tm b.errors name deps out
  { b with default := d', errors := es' }

/-- Embeds `ImperativeStepBuilder::add_dep` (mod.rs lines 93-104): if the type
id is already bound, record an `AddDep` error and leave the map alone;
otherwise bind the value. -/
def ImperativeStepBuilder.add_dep {O V E : Type} (b : ImperativeStepBuilder O V E)
    (t : Nat) (v : V) : ImperativeStepBuilder O V E :=
  if (b.tm.get t).isSome then
    { b with errors := b.errors ++ [Error.AddDep t] }
  else
    { b with tm := b.tm.bind t v }

/-- Embeds `ImperativeStepBuilder::new_group` (mod.rs lines 109-115): run the
caller's closure on a fresh group builder sharing the type map and the
error list, then push the resulting group. -/
def ImperativeStepBuilder.new_group {O V E : Type} (b : ImperativeStepBuilder O V E)
    (f : GroupBuilder O V E → GroupBuilder O V E) : ImperativeStepBuilder O V E :=
  let gb := f (GroupBuilder.init b.tm b.errors)
  { b with groups := b.groups ++ [gb.g], errors := gb.errors }

/-- Embeds `ImperativeStepBuilder::before_step` (mod.rs lines 121-125): adds the
callback to the default group. -/
def ImperativeStepBuilder.before_step {O V E : Type}
    (b : ImperativeStepBuilder O V E) (id : Nat) : ImperativeStepBuilder O V E :=
  { b with default := b.default.add_callback (CallbackKind.BeforeStep id) }

/-- Embeds `ImperativeStepBuilder::after_step` (mod.rs lines 131-135). -/
def ImperativeStepBuilder.after_step {O V E : Type}
    (b : ImperativeStepBuilder O V E) (id : Nat) : ImperativeStepBuilder O V E :=
  { b with default := b.default.add_callback (CallbackKind.AfterStep id) }

/-- The group loop of `ImperativeStepBuilder::execute` (mod.rs lines
162-170): execute each group in order, aborting on the first group
error, then flatten the per-group maps and collect (later entries
overwrite earlier ones).  `σs i` is the completion order for the `i`-th
group in execution order. -/
def execGroups {O E : Type} (succ : O → Bool) (err : O → Option E)
    (σs : Nat → List Nat) :
    List (Group O) → Nat → List (Event O) → List (List (String × O)) →
    List (Event O) × Except (Error E) (List (String × O))
  | [], _, tr, outs => (tr, Except.ok (collectMap outs.flatten))
  | g :: rest, i, tr, outs =>
    match g.execute succ err (σs i) with
    | (ev, Except.error e) => (tr ++ ev, Except.error e)
    | (ev, Except.ok m) => execGroups succ err σs rest (i + 1) (tr ++ ev) (outs ++ [m])

/-- Embeds `ImperativeStepBuilder::execute` (mod.rs lines 147-171): pop (return
the LAST of) the accumulated errors if any; otherwise append the default
group's callbacks onto every explicit group's list, then execute the
default group followed by each explicit group in registration order and
merge the result maps. -/
def ImperativeStepBuilder.execute {O V E : Type} (b : ImperativeStepBuilder O V E)
    (succ : O → Bool) (err : O → Option E) (σs : Nat → List Nat) :
    List (Event O) × Except (Error E) (List (String × O)) :=
  match b.errors.getLast? with
  | some e => ([], Except.error e)
  | none =>
    let cbs := b.default.opts.callbacks
    let gs := b.groups.map fun g =>
      { g with opts := { g.opts with callbacks := g.opts.callbacks ++ cbs } }
    execGroups succ err σs (b.default :: gs) 0 [] []

/-- The (name, outcome) pairs of a group's steps in declared order. -/
def pairsOf {O : Type} (g : Group O) : List (String × O) :=
  g.steps.map fun s => (s.name, s.fut)

/-- The value of the last pair carrying key `k`, if any. -/
def lastVal {O : Type} (ps : List (String × O)) (k : String) : Option O :=
  (ps.reverse.find? (fun p => p.1 == k)).map (·.2)

/-- A sequential group that cannot abort: it tolerates failure or every
step's outcome is a success. -/
def seqComplete {O : Type} (succ : O → Bool) (g : Group O) : Prop :=
  g.opts.parallel = false ∧
    (g.opts.tolerate_failure = true ∨ ∀ s ∈ g.steps, succ s.fut = true)

/-- A group whose execution returns a result map: parallel with a valid
completion order, or sequential and non-aborting. -/
def completes {O : Type} (succ : O → Bool) (g : Group O) (σ : List Nat) : Prop :=
  (g.opts.parallel = true ∧ σ.Perm (List.range g.steps.length)) ∨ seqComplete succ g

/-- Embeds `IntoStepOutcome for bool` (outcome.rs lines 38-46): success iff
true, never a cause. -/
def boolSuccess : Bool → Bool := fun b => b

/-- Embeds `IntoStepOutcome for bool`: `error` is always `None`. -/
def boolError {E : Type} : Bool → Option E := fun _ => none

/-- Embeds `IntoStepOutcome for Result<T, E>` (outcome.rs lines 59-73):
success iff `Ok`. -/
def resultSuccess {T E : Type} : Except E T → Bool := fun r =>
  match r with
  | Except.ok _ => true
  | Except.error _ => false

/-- Embeds `IntoStepOutcome for Result<T, E>`: the `Err` payload is the cause. -/
def resultError {T E : Type} : Except E T → Option E := fun r =>
  match r with
  | Except.ok _ => none
  | Except.error e => some e

/-- Bool outcome dictionary at `E := Nat`. -/
def succB : Bool → Bool := boolSuccess

/-- Bool outcome dictionary at `E := Nat`: no cause. -/
def errB : Bool → Option Nat := boolError

/-- Result outcome dictionary at `T := Nat`, `E := Nat`. -/
def succR : Except Nat Nat → Bool := resultSuccess

/-- Result outcome dictionary: the `Err` payload is the cause. -/
def errR : Except Nat Nat → Option Nat := resultError

/-- Completion orders for sequential-only executions. -/
def σempty : Nat → List Nat := fun _ => []

/-- A builder that accumulates two build errors through the API: a
duplicate binding for type id 0, then a step whose dependency (type id
1) is unbound. -/
def c1b : ImperativeStepBuilder Bool Nat Nat :=
  ((ImperativeStepBuilder.init.add_dep 0 7).add_dep 0 8).add_step "s" [1] true

/-- Successful first step of the C2 scenario. -/
def sa : Step (Except Nat Nat) := { name := "a", fut := Except.ok 1 }

/-- Failing (with cause 5) second step of the C2 scenario. -/
def sb : Step (Except Nat Nat) := { name := "b", fut := Except.error 5 }

/-- Never-reached third step of the C2 scenario. -/
def sc : Step (Except Nat Nat) := { name := "c", fut := Except.ok 2 }

/-- Sequential non-tolerant group: ok, failing-with-cause, ok. -/
def g2w : Group (Except Nat Nat) :=
  { steps := [sa, sb, sc], opts := GroupOptions.init }

/-- Parallel (hence tolerant) two-step group with a failing step. -/
def g3w : Group Bool :=
  { steps := [{ name := "p", fut := true }, { name := "q", fut := false }],
    opts := { parallel := true, tolerate_failure := true, callbacks := [] } }

/-- Builder bound once at type id 3. -/
def b5w : ImperativeStepBuilder Bool Nat Nat := ImperativeStepBuilder.init.add_dep 3 7

/-- Sequential tolerant group of 50 steps alternating success (even
positions) and failure (odd positions). -/
def c6g : Group Bool :=
  { steps := (List.range 50).map (fun i => { name := toString i, fut := i % 2 == 0 }),
    opts := { parallel := false, tolerate_failure := true, callbacks := [] } }

/-- Builder with builder-level callbacks 0/1, a default step and an
explicit group with its own callback 2. -/
def b7w : ImperativeStepBuilder Bool Nat Nat :=
  (((ImperativeStepBuilder.init.before_step 0).after_step 1).add_step "x" [] true).new_group
    (fun gb => ((gb.add_step "y" [] false).before_step 2).tolerate_failure)

/-- Builder with the name "x" in both the default group and an explicit
tolerant group. -/
def b8w : ImperativeStepBuilder Bool Nat Nat :=
  (ImperativeStepBuilder.init.add_step "x" [] true).new_group
    (fun gb => (gb.add_step "x" [] false).tolerate_failure)

/-- The explicit group of `b9w`: one step failing with cause 7. -/
def g9w : Group (Except Nat Nat) :=
  { steps := [{ name := "f", fut := Except.error 7 }], opts := GroupOptions.init }

/-- Builder whose only explicit group contains a failing step. -/
def b9w : ImperativeStepBuilder (Except Nat Nat) Nat Nat :=
  ImperativeStepBuilder.init.new_group (fun gb => gb.add_step "f" [] (Except.error 7))

/-- Recognizes the `Group` error variant in an execution result. -/
def isGroupError : Except (Error Nat) (List (String × Except Nat Nat)) → Bool := fun r =>
  match r with
  | Except.error (Error.Group _ _) => true
  | _ => false

/-- Sequential non-tolerant group whose second step fails without a
cause, with one `AfterStep` callback registered. -/
def g10w : Group Bool :=
  { steps := [{ name := "a", fut := true }, { name := "b", fut := false }],
    opts := { parallel := false, tolerate_failure := false,
              callbacks := [CallbackKind.AfterStep 3] } }

/-! ## Theorems -/

/-- Sorting a permutation of `range n` by `≤` gives back `range n`. -/
theorem sortedPerm_range_eq {σ : List Nat} {n : Nat}
    (hp : σ.Perm (List.range n)) : List.insertionSort (· ≤ ·) σ = List.range n := by
  apply List.eq_of_perm_of_sorted (r := (· ≤ · : Nat → Nat → Prop))
    ((List.perm_insertionSort _ σ).trans hp)
  · exact List.sorted_insertionSort _ σ
  · exact List.pairwise_le_range n

/-- Indexing a list by all positions in order reproduces the list. -/
theorem range_filterMap_getElem {α : Type} (xs : List α) :
    (List.range xs.length).filterMap (fun i => xs[i]?) = xs := by
  induction xs with
  | nil => simp
  | cons x xs ih =>
    rw [List.length_cons, List.range_succ_eq_map, List.filterMap_cons]
    simp only [List.getElem?_cons_zero, List.filterMap_map]
    have hfun : ((fun i => (x :: xs)[i]?) ∘ Nat.succ) = fun i => xs[i]? := by
      funext i
      simp
    rw [hfun, ih]

/-- Collection through `FuturesOrdered` re-emits the original sequence
whatever the completion order. -/
theorem futuresOrdered_perm {α : Type} (xs : List α) (σ : List Nat)
    (hp : σ.Perm (List.range xs.length)) : futuresOrdered xs σ = xs := by
  rw [futuresOrdered, sortedPerm_range_eq hp, range_filterMap_getElem]

theorem find?_map_replace_self {O : Type} (l : List (String × O)) (k : String) (v : O)
    (h : l.any (fun p => p.1 == k) = true) :
    (l.map (fun p => if p.1 == k then (k, v) else p)).find? (fun p => p.1 == k)
      = some (k, v) := by
  induction l with
  | nil => simp at h
  | cons p l ih =>
    rw [List.map_cons]
    by_cases hp : p.1 = k
    · rw [if_pos (by simpa using hp), List.find?_cons_of_pos _ (by simp)]
    · have hp' : (p.1 == k) = false := by simp [hp]
      simp only [List.any_cons, hp', Bool.false_or] at h
      rw [if_neg (by simpa using hp), List.find?_cons_of_neg _ (by simp [hp]), ih h]

theorem find?_map_replace_ne {O : Type} (l : List (String × O)) (k k' : String) (v : O)
    (hne : k' ≠ k) :
    (l.map (fun p => if p.1 == k then (k, v) else p)).find? (fun p => p.1 == k')
      = l.find? (fun p => p.1 == k') := by
  induction l with
  | nil => simp
  | cons p l ih =>
    rw [List.map_cons]
    by_cases hp : p.1 = k
    · rw [if_pos (by simpa using hp),
        List.find?_cons_of_neg _ (by simp [Ne.symm hne]),
        List.find?_cons_of_neg _ (by simp [hp, Ne.symm hne]), ih]
    · rw [if_neg (by simpa using hp)]
      by_cases hq : p.1 = k'
      · rw [List.find?_cons_of_pos _ (by simp [hq]),
          List.find?_cons_of_pos _ (by simp [hq])]
      · rw [List.find?_cons_of_neg _ (by simp [hq]),
          List.find?_cons_of_neg _ (by simp [hq]), ih]

theorem mapLookup_mapInsert {O : Type} (m : List (String × O)) (k k' : String) (v : O) :
    mapLookup (mapInsert m k v) k' = if k' = k then some v else mapLookup m k' := by
  by_cases hany : m.any (fun p => p.1 == k) = true
  · rw [mapInsert, if_pos hany]
    by_cases hk : k' = k
    · subst hk
      rw [if_pos rfl, mapLookup, find?_map_replace_self m k' v hany]
      rfl
    · rw [if_neg hk, mapLookup, find?_map_replace_ne m k k' v hk, mapLookup]
  · rw [mapInsert, if_neg hany]
    have hnone : m.find? (fun p => p.1 == k) = none := by
      rw [List.find?_eq_none]
      intro p hp
      by_contra hc
      exact hany (List.any_eq_true.mpr ⟨p, hp, by simpa using hc⟩)
    by_cases hk : k' = k
    · subst hk
      rw [if_pos rfl, mapLookup, List.find?_append, hnone]
      rw [List.find?_cons_of_pos _ (by simp)]
      rfl
    · rw [if_neg hk, mapLookup, List.find?_append, mapLookup]
      rw [List.find?_cons_of_neg _ (by simp [Ne.symm hk]), List.find?_nil]
      cases m.find? (fun p => p.1 == k') <;> rfl

theorem lastVal_mapInsert {O : Type} (m : List (String × O)) (k k' : String) (v : O) :
    lastVal (mapInsert m k v) k' = if k' = k then some v else lastVal m k' := by
  by_cases hany : m.any (fun p => p.1 == k) = true
  · rw [mapInsert, if_pos hany]
    have hanyrev : m.reverse.any (fun p => p.1 == k) = true := by
      simpa using hany
    by_cases hk : k' = k
    · subst hk
      rw [if_pos rfl, lastVal, ← List.map_reverse,
        find?_map_replace_self m.reverse k' v hanyrev]
      rfl
    · rw [if_neg hk, lastVal, ← List.map_reverse,
        find?_map_replace_ne m.reverse k k' v hk, lastVal]
  · rw [mapInsert, if_neg hany]
    rw [lastVal, List.reverse_append]
    by_cases hk : k' = k
    · subst hk
      rw [show ([(k', v)] : List (String × O)).reverse = [(k', v)] from rfl,
        List.singleton_append, List.find?_cons_of_pos _ (by simp)]
      simp
    · rw [show ([(k, v)] : List (String × O)).reverse = [(k, v)] from rfl,
        List.singleton_append, List.find?_cons_of_neg _ (by simp [Ne.symm hk]),
        if_neg hk, lastVal]

theorem mapLookup_foldl_mapInsert {O : Type} (ps : List (String × O))
    (m : List (String × O)) (k : String) :
    mapLookup (ps.foldl (fun m p => mapInsert m p.1 p.2) m) k
      = (lastVal ps k).or (mapLookup m k) := by
  induction ps generalizing m with
  | nil => simp [lastVal]
  | cons p ps ih =>
    rw [List.foldl_cons, ih]
    have hlv : lastVal (p :: ps) k
        = (lastVal ps k).or (if k = p.1 then some p.2 else none) := by
      rw [lastVal, lastVal, List.reverse_cons, List.find?_append]
      by_cases hk : k = p.1
      · rw [List.find?_cons_of_pos _ (by simp [hk]), if_pos hk]
        cases List.find? (fun q => q.1 == k) ps.reverse <;> simp
      · rw [List.find?_cons_of_neg _ (by simp [Ne.symm hk]), List.find?_nil, if_neg hk]
        cases List.find? (fun q => q.1 == k) ps.reverse <;> simp
    rw [hlv, mapLookup_mapInsert]
    by_cases hk : k = p.1
    · rw [if_pos hk, if_pos hk]
      cases lastVal ps k <;> simp
    · rw [if_neg hk, if_neg hk]
      cases lastVal ps k <;> simp

theorem lastVal_foldl_mapInsert {O : Type} (ps : List (String × O))
    (m : List (String × O)) (k : String) :
    lastVal (ps.foldl (fun m p => mapInsert m p.1 p.2) m) k
      = (lastVal ps k).or (lastVal m k) := by
  induction ps generalizing m with
  | nil => simp [lastVal]
  | cons p ps ih =>
    rw [List.foldl_cons, ih]
    have hlv : lastVal (p :: ps) k
        = (lastVal ps k).or (if k = p.1 then some p.2 else none) := by
      rw [lastVal, lastVal, List.reverse_cons, List.find?_append]
      by_cases hk : k = p.1
      · rw [List.find?_cons_of_pos _ (by simp [hk]), if_pos hk]
        cases List.find? (fun q => q.1 == k) ps.reverse <;> simp
      · rw [List.find?_cons_of_neg _ (by simp [Ne.symm hk]), List.find?_nil, if_neg hk]
        cases List.find? (fun q => q.1 == k) ps.reverse <;> simp
    rw [hlv, lastVal_mapInsert]
    by_cases hk : k = p.1
    · rw [if_pos hk, if_pos hk]
      cases lastVal ps k <;> simp
    · rw [if_neg hk, if_neg hk]
      cases lastVal ps k <;> simp

theorem mapLookup_collectMap {O : Type} (ps : List (String × O)) (k : String) :
    mapLookup (collectMap ps) k = lastVal ps k := by
  rw [collectMap, mapLookup_foldl_mapInsert]
  cases h : lastVal ps k <;> simp [mapLookup]

theorem lastVal_collectMap {O : Type} (ps : List (String × O)) (k : String) :
    lastVal (collectMap ps) k = lastVal ps k := by
  rw [collectMap, lastVal_foldl_mapInsert]
  cases h : lastVal ps k <;> simp [lastVal]

theorem lastVal_append {O : Type} (ps qs : List (String × O)) (k : String) :
    lastVal (ps ++ qs) k = (lastVal qs k).or (lastVal ps k) := by
  rw [lastVal, lastVal, lastVal, List.reverse_append, List.find?_append]
  cases List.find? (fun p => p.1 == k) qs.reverse <;> simp

/-- If a step's name is unique in the group, the last (indeed only)
recorded value for it is its own outcome. -/
theorem lastVal_pairs_of_unique {O : Type} (steps : List (Step O)) (s : Step O)
    (hs : s ∈ steps) (huniq : ∀ s' ∈ steps, s'.name = s.name → s' = s) :
    lastVal (steps.map fun x => (x.name, x.fut)) s.name = some s.fut := by
  rw [lastVal]
  have hsome : (List.find? (fun p => p.1 == s.name)
      (steps.map fun x => (x.name, x.fut)).reverse).isSome = true := by
    rw [List.find?_isSome]
    exact ⟨(s.name, s.fut), by simp [List.mem_reverse]; exact ⟨s, hs, rfl, rfl⟩, by simp⟩
  obtain ⟨p, hp⟩ := Option.isSome_iff_exists.mp hsome
  have hmem : p ∈ (steps.map fun x => (x.name, x.fut)).reverse := List.mem_of_find?_eq_some hp
  have hpred : (p.1 == s.name) = true := by
    have h' := List.find?_some hp
    simpa using h'
  rw [List.mem_reverse, List.mem_map] at hmem
  obtain ⟨x, hx, hxp⟩ := hmem
  have hxname : x.name = s.name := by
    have := hpred
    rw [← hxp] at this
    simpa using this
  have hxs : x = s := huniq x hx hxname
  rw [hp, ← hxp, hxs]
  rfl

/-- The sequential loop when nothing aborts: if the group tolerates
failure or every remaining step succeeds, every step runs in declared
order and every outcome is inserted. -/
theorem seqLoop_complete {O E : Type} (succ : O → Bool) (err : O → Option E)
    (cbs : List CallbackKind) (tolerate : Bool) (steps : List (Step O))
    (outputs : List (String × O)) (tr : List (Event O))
    (h : ∀ s ∈ steps, tolerate = true ∨ succ s.fut = true) :
    seqLoop succ err cbs tolerate steps outputs tr
      = (tr ++ steps.flatMap (fun s => stepTrace s cbs),
         Except.ok (steps.foldl (fun m s => mapInsert m s.name s.fut) outputs)) := by
  induction steps generalizing outputs tr with
  | nil => simp [seqLoop]
  | cons s rest ih =>
    have hs := h s (by simp)
    have hrest : ∀ x ∈ rest, tolerate = true ∨ succ x.fut = true :=
      fun x hx => h x (by simp [hx])
    rcases hs with ht | hsucc
    · subst ht
      rw [seqLoop]
      simp only [if_pos rfl]
      rw [ih _ _ hrest]
      simp [stepTrace, exec_step, List.flatMap_cons, List.append_assoc]
    · rw [seqLoop]
      by_cases htol : tolerate = true
      · subst htol
        simp only [if_pos rfl]
        rw [ih _ _ hrest]
        simp [stepTrace, exec_step, List.flatMap_cons, List.append_assoc]
      · have htol' : tolerate = false := by simpa using htol
        subst htol'
        simp only [Bool.false_eq_true, if_false]
        have : (exec_step s cbs).2 = s.fut := rfl
        rw [this, hsucc]
        simp only [if_pos rfl]
        rw [ih _ _ hrest]
        simp [stepTrace, exec_step, List.flatMap_cons, List.append_assoc]

/-- The sequential non-tolerant loop on a failing step after a
successful prefix: the loop runs exactly the prefix and the failing
step (callbacks included) and aborts with `Step` or `UnknownStep`
according to whether the outcome carries a cause. -/
theorem seqLoop_fail {O E : Type} (succ : O → Bool) (err : O → Option E)
    (cbs : List CallbackKind) (pre : List (Step O)) (s : Step O)
    (post : List (Step O)) (outputs : List (String × O)) (tr : List (Event O))
    (hpre : ∀ x ∈ pre, succ x.fut = true) (hs : succ s.fut = false) :
    seqLoop succ err cbs false (pre ++ s :: post) outputs tr
      = (tr ++ (pre ++ [s]).flatMap (fun x => stepTrace x cbs),
         match err s.fut with
         | some e => Except.error (Error.Step s.name e)
         | none => Except.error (Error.UnknownStep s.name)) := by
  induction pre generalizing outputs tr with
  | nil =>
    rw [List.nil_append, seqLoop]
    simp only [Bool.false_eq_true, if_false]
    have h2 : (exec_step s cbs).2 = s.fut := rfl
    rw [h2, hs]
    simp only [Bool.false_eq_true, if_false]
    cases herr : err s.fut <;> simp [stepTrace]
  | cons x pre ih =>
    have hx : succ x.fut = true := hpre x (by simp)
    have hpre' : ∀ y ∈ pre, succ y.fut = true := fun y hy => hpre y (by simp [hy])
    rw [List.cons_append, seqLoop]
    simp only [Bool.false_eq_true, if_false]
    have h2 : (exec_step x cbs).2 = x.fut := rfl
    rw [h2, hx]
    simp only [if_pos rfl]
    rw [ih _ _ hpre']
    simp [List.flatMap_cons, List.append_assoc]

theorem Group.execute_seqComplete {O E : Type} (succ : O → Bool) (err : O → Option E)
    (g : Group O) (σ : List Nat) (h : seqComplete succ g) :
    g.execute succ err σ
      = (g.steps.flatMap (fun s => stepTrace s g.opts.callbacks),
         Except.ok (collectMap (pairsOf g))) := by
  obtain ⟨hpar, hrest⟩ := h
  rw [Group.execute]
  simp only [hpar, Bool.false_eq_true, if_false]
  have h' : ∀ s ∈ g.steps, g.opts.tolerate_failure = true ∨ succ s.fut = true := by
    rcases hrest with ht | hall
    · exact fun s _ => Or.inl ht
    · exact fun s hs => Or.inr (hall s hs)
  rw [seqLoop_complete succ err g.opts.callbacks g.opts.tolerate_failure g.steps [] [] h']
  rw [List.nil_append, collectMap, pairsOf, List.foldl_map]

theorem Group.execute_par {O E : Type} (succ : O → Bool) (err : O → Option E)
    (g : Group O) (σ : List Nat) (hpar : g.opts.parallel = true)
    (hperm : σ.Perm (List.range g.steps.length)) :
    (g.execute succ err σ).2 = Except.ok (collectMap (pairsOf g)) := by
  rw [Group.execute]
  simp only [hpar, if_true]
  rw [futuresOrdered_perm _ _ (by simpa using hperm)]
  rfl

theorem Group.execute_completes {O E : Type} (succ : O → Bool) (err : O → Option E)
    (g : Group O) (σ : List Nat) (h : completes succ g σ) :
    (g.execute succ err σ).2 = Except.ok (collectMap (pairsOf g)) := by
  rcases h with ⟨hpar, hperm⟩ | hseq
  · exact Group.execute_par succ err g σ hpar hperm
  · rw [Group.execute_seqComplete succ err g σ hseq]

theorem execGroups_ok {O E : Type} (succ : O → Bool) (err : O → Option E)
    (σs : Nat → List Nat) (gs : List (Group O)) (i : Nat)
    (tr : List (Event O)) (outs : List (List (String × O)))
    (h : ∀ j (hj : j < gs.length), completes succ gs[j] (σs (i + j))) :
    ∃ M, (execGroups succ err σs gs i tr outs).2 = Except.ok M ∧
      ∀ k, mapLookup M k
        = (lastVal (gs.flatMap pairsOf) k).or (lastVal outs.flatten k) := by
  induction gs generalizing i tr outs with
  | nil =>
    refine ⟨collectMap outs.flatten, rfl, fun k => ?_⟩
    rw [mapLookup_collectMap]
    simp [lastVal]
  | cons g rest ih =>
    have hg : completes succ g (σs i) := by
      have := h 0 (by simp)
      simpa using this
    have h2 : (g.execute succ err (σs i)).2 = Except.ok (collectMap (pairsOf g)) :=
      Group.execute_completes succ err g (σs i) hg
    simp only [execGroups]
    cases hE : g.execute succ err (σs i) with
    | mk ev r =>
      rw [hE] at h2
      simp only at h2
      subst h2
      have hshift : ∀ j (hj : j < rest.length), completes succ rest[j] (σs (i + 1 + j)) := by
        intro j hj
        have := h (j + 1) (by simpa using Nat.succ_lt_succ hj)
        have harith : i + (j + 1) = i + 1 + j := by omega
        rw [harith] at this
        simpa using this
      obtain ⟨M, hM, hlook⟩ := ih (i + 1) (tr ++ ev) (outs ++ [collectMap (pairsOf g)]) hshift
      refine ⟨M, hM, fun k => ?_⟩
      rw [hlook k]
      rw [List.flatten_append, List.flatten_cons, List.flatten_nil, List.append_nil]
      rw [lastVal_append, lastVal_collectMap]
      rw [List.flatMap_cons, lastVal_append]
      rw [Option.or_assoc]

theorem execGroups_seq_trace {O E : Type} (succ : O → Bool) (err : O → Option E)
    (σs : Nat → List Nat) (gs : List (Group O)) (i : Nat)
    (tr : List (Event O)) (outs : List (List (String × O)))
    (h : ∀ g ∈ gs, seqComplete succ g) :
    (execGroups succ err σs gs i tr outs).1
      = tr ++ gs.flatMap (fun g => g.steps.flatMap (fun s => stepTrace s g.opts.callbacks)) := by
  induction gs generalizing i tr outs with
  | nil => simp [execGroups]
  | cons g rest ih =>
    have hg := h g (by simp)
    have hE := Group.execute_seqComplete succ err g (σs i) hg
    simp only [execGroups]
    rw [hE]
    simp only
    rw [ih (i + 1) _ _ (fun g' hg' => h g' (by simp [hg']))]
    simp [List.flatMap_cons, List.append_assoc]

theorem count_before_beforeEvents {O : Type} [DecidableEq O]
    (cbs : List CallbackKind) (s : Step O) (i : Nat) :
    (beforeEvents cbs s).count (Event.before i s.name)
      = cbs.count (CallbackKind.BeforeStep i) := by
  induction cbs with
  | nil => rfl
  | cons cb cbs ih =>
    cases cb with
    | BeforeStep j =>
      by_cases hj : j = i
      · subst hj
        simp [beforeEvents, List.count_cons] at ih ⊢
        omega
      · simp [beforeEvents, List.count_cons, hj] at ih ⊢
        exact ih
    | AfterStep j =>
      simp [beforeEvents, List.count_cons] at ih ⊢
      exact ih

theorem count_after_afterEvents {O : Type} [DecidableEq O]
    (cbs : List CallbackKind) (name : String) (res : O) (i : Nat) :
    (afterEvents cbs name res).count (Event.after i name res)
      = cbs.count (CallbackKind.AfterStep i) := by
  induction cbs with
  | nil => rfl
  | cons cb cbs ih =>
    cases cb with
    | AfterStep j =>
      by_cases hj : j = i
      · subst hj
        simp [afterEvents, List.count_cons] at ih ⊢
        omega
      · simp [afterEvents, List.count_cons, hj] at ih ⊢
        exact ih
    | BeforeStep j =>
      simp [afterEvents, List.count_cons] at ih ⊢
      exact ih

theorem count_before_afterEvents {O : Type} [DecidableEq O]
    (cbs : List CallbackKind) (name name' : String) (res : O) (j : Nat) :
    (afterEvents cbs name res).count (Event.before j name') = 0 := by
  induction cbs with
  | nil => rfl
  | cons cb cbs ih =>
    cases cb with
    | AfterStep m => simpa [afterEvents, List.count_cons] using ih
    | BeforeStep m => simpa [afterEvents] using ih

theorem count_after_beforeEvents {O : Type} [DecidableEq O]
    (cbs : List CallbackKind) (s : Step O) (name' : String) (res : O) (j : Nat) :
    (beforeEvents cbs s).count (Event.after j name' res) = 0 := by
  induction cbs with
  | nil => rfl
  | cons cb cbs ih =>
    cases cb with
    | BeforeStep m => simpa [beforeEvents, List.count_cons] using ih
    | AfterStep m => simpa [beforeEvents] using ih

theorem count_before_stepTrace {O : Type} [DecidableEq O]
    (s : Step O) (cbs : List CallbackKind) (i : Nat) :
    (stepTrace s cbs).count (Event.before i s.name)
      = cbs.count (CallbackKind.BeforeStep i) := by
  rw [stepTrace, exec_step]
  simp only [List.count_append]
  rw [count_before_beforeEvents, count_before_afterEvents]
  simp [List.count_singleton]

theorem count_after_stepTrace {O : Type} [DecidableEq O]
    (s : Step O) (cbs : List CallbackKind) (i : Nat) :
    (stepTrace s cbs).count (Event.after i s.name s.fut)
      = cbs.count (CallbackKind.AfterStep i) := by
  rw [stepTrace, exec_step]
  simp only [List.count_append]
  rw [count_after_afterEvents, count_after_beforeEvents]
  simp [List.count_singleton]

theorem after_mem_afterEvents {O : Type} (cbs : List CallbackKind)
    (name : String) (res : O) (i : Nat) (h : CallbackKind.AfterStep i ∈ cbs) :
    Event.after i name res ∈ afterEvents cbs name res := by
  rw [afterEvents, List.mem_filterMap]
  exact ⟨CallbackKind.AfterStep i, h, rfl⟩

/-- A sequential non-tolerant group with a failing step after a
successful prefix: exactly the prefix and the failing step execute, and
the group aborts with `Step` (cause available) or `UnknownStep`. -/
theorem Group.execute_fail {O E : Type} (succ : O → Bool) (err : O → Option E)
    (g : Group O) (pre : List (Step O)) (fl : Step O) (post : List (Step O))
    (σ : List Nat)
    (hpar : g.opts.parallel = false) (htol : g.opts.tolerate_failure = false)
    (hsteps : g.steps = pre ++ fl :: post)
    (hpre : ∀ x ∈ pre, succ x.fut = true) (hfl : succ fl.fut = false) :
    g.execute succ err σ
      = ((pre ++ [fl]).flatMap (fun s => stepTrace s g.opts.callbacks),
         match err fl.fut with
         | some e => Except.error (Error.Step fl.name e)
         | none => Except.error (Error.UnknownStep fl.name)) := by
  rw [Group.execute]
  simp only [hpar, Bool.false_eq_true, if_false]
  rw [htol, hsteps, seqLoop_fail succ err g.opts.callbacks pre fl post [] [] hpre hfl]
  rw [List.nil_append]

/-- C1 (amended): when the accumulated build-time error sequence is
non-empty at the moment `execute` is invoked, `execute` returns its LAST
entry immediately, before any step's deferred computation is driven (the
source pops the error vector). -/
theorem imperat_C1 {O V E : Type} (succ : O → Bool) (err : O → Option E)
    (σs : Nat → List Nat) (b : ImperativeStepBuilder O V E)
    (es : List (Error E)) (e : Error E) (hb : b.errors = es ++ [e]) :
    b.execute succ err σs = ([], Except.error e) := by
  rw [ImperativeStepBuilder.execute, hb]
  rw [show (es ++ [e]).getLast? = some e from List.getLast?_concat _]

/-- C2: a sequential non-tolerant group halts at the first failing step,
returning `Step(name, cause)` when the outcome carries a cause and
`UnknownStep(name)` otherwise; no later step of that group nor any step
of any subsequent group runs. -/
theorem imperat_C2 {O V E : Type} (succ : O → Bool) (err : O → Option E)
    (g : Group O) (pre : List (Step O)) (fl : Step O) (post : List (Step O))
    (σ : List Nat)
    (hpar : g.opts.parallel = false) (htol : g.opts.tolerate_failure = false)
    (hsteps : g.steps = pre ++ fl :: post)
    (hpre : ∀ x ∈ pre, succ x.fut = true) (hfl : succ fl.fut = false) :
    g.execute succ err σ
      = ((pre ++ [fl]).flatMap (fun s => stepTrace s g.opts.callbacks),
         match err fl.fut with
         | some e => Except.error (Error.Step fl.name e)
         | none => Except.error (Error.UnknownStep fl.name)) ∧
    ∀ (b : ImperativeStepBuilder O V E) (σs : Nat → List Nat),
      b.errors = [] → b.default = g →
      b.execute succ err σs
        = ((pre ++ [fl]).flatMap (fun s => stepTrace s g.opts.callbacks),
           match err fl.fut with
           | some e => Except.error (Error.Step fl.name e)
           | none => Except.error (Error.UnknownStep fl.name)) := by
  have hmain := Group.execute_fail succ err g pre fl post σ hpar htol hsteps hpre hfl
  refine ⟨hmain, fun b σs hb hdef => ?_⟩
  rw [ImperativeStepBuilder.execute, hb]
  simp only [List.getLast?_nil]
  simp only [execGroups, hdef]
  rw [Group.execute_fail succ err g pre fl post (σs 0) hpar htol hsteps hpre hfl]
  cases herr : err fl.fut with
  | none => rfl
  | some e => rfl

/-- C3: a parallel group unconditionally behaves as failure-tolerant
(`parallel()` also sets `tolerate_failure`, and parallel execution never
returns an error, whatever the success classification); every step's
outcome is recorded, and the collected results are in the steps'
declared order whatever the completion order `σ`. -/
theorem imperat_C3 {O V E : Type} (succ : O → Bool) (err : O → Option E)
    (g : Group O) (σ : List Nat)
    (hpar : g.opts.parallel = true)
    (hperm : σ.Perm (List.range g.steps.length)) :
    (g.execute succ err σ).2 = Except.ok (collectMap (pairsOf g)) ∧
    (∀ gb : GroupBuilder O V E,
      (GroupBuilder.parallel gb).g.opts.parallel = true ∧
      (GroupBuilder.parallel gb).g.opts.tolerate_failure = true) ∧
    ∀ s ∈ g.steps, (∀ s' ∈ g.steps, s'.name = s.name → s' = s) →
      mapLookup (collectMap (pairsOf g)) s.name = some s.fut := by
  refine ⟨Group.execute_par succ err g σ hpar hperm, fun gb => ⟨rfl, rfl⟩, ?_⟩
  intro s hs hu
  rw [mapLookup_collectMap, pairsOf]
  exact lastVal_pairs_of_unique g.steps s hs hu

/-- C4: step registration resolves dependencies immediately against the
current store; with an unbound dependency type the step is dropped, a
`DepResolution` error naming it is recorded, and a subsequent `execute`
returns `DepResolution` without executing any step — both for default
(`add_step`) and group-scoped registration. -/
theorem imperat_C4 {O V E : Type} (succ : O → Bool) (err : O → Option E)
    (σs : Nat → List Nat) (b : ImperativeStepBuilder O V E)
    (name : String) (deps : List Nat) (out : O)
    (hb : b.errors = [])
    (hmiss : ∃ t ∈ deps, b.tm.get t = none) :
    (b.add_step name deps out).default.steps = b.default.steps ∧
    (b.add_step name deps out).errors = [Error.DepResolution name] ∧
    (b.add_step name deps out).execute succ err σs
      = ([], Except.error (Error.DepResolution name)) ∧
    (b.new_group (fun gb => gb.add_step name deps out)).groups
      = b.groups ++ [Group.init] ∧
    (b.new_group (fun gb => gb.add_step name deps out)).errors
      = [Error.DepResolution name] ∧
    (b.new_group (fun gb => gb.add_step name deps out)).execute succ err σs
      = ([], Except.error (Error.DepResolution name)) := by
  have hall : deps.all (fun t => (b.tm.get t).isSome) = false := by
    obtain ⟨t, ht, hnone⟩ := hmiss
    rw [List.all_eq_false]
    exact ⟨t, ht, by simp [hnone]⟩
  have hadd : b.default.add_step b.tm b.errors name deps out
      = (b.default, [Error.DepResolution name]) := by
    rw [Group.add_step, if_neg (by simp [hall]), hb, List.nil_append]
  have hgadd : Group.init.add_step b.tm b.errors name deps out
      = ((Group.init : Group O), [Error.DepResolution name]) := by
    rw [Group.add_step, if_neg (by simp [hall]), hb, List.nil_append]
  refine ⟨?_, ?_, ?_, ?_, ?_, ?_⟩
  · rw [ImperativeStepBuilder.add_step, hadd]
  · rw [ImperativeStepBuilder.add_step, hadd]
  · rw [ImperativeStepBuilder.add_step, hadd]
    rfl
  · rw [ImperativeStepBuilder.new_group, GroupBuilder.init, GroupBuilder.add_step]
    simp only [hgadd]
  · rw [ImperativeStepBuilder.new_group, GroupBuilder.init, GroupBuilder.add_step]
    simp only [hgadd]
  · rw [ImperativeStepBuilder.new_group, GroupBuilder.init, GroupBuilder.add_step]
    simp only [hgadd]
    rfl

/-- C5: binding a second value for an already-bound type identity
records an `AddDep` error naming that type id and leaves the store
unchanged: the first value remains the one resolvable for it. -/
theorem imperat_C5 {O V E : Type} (b : ImperativeStepBuilder O V E)
    (t : Nat) (v : V) (h : (b.tm.get t).isSome = true) :
    (b.add_dep t v).errors = b.errors ++ [Error.AddDep t] ∧
    (b.add_dep t v).tm = b.tm ∧
    (b.add_dep t v).tm.get t = b.tm.get t := by
  rw [ImperativeStepBuilder.add_dep, if_pos h]
  exact ⟨rfl, rfl, rfl⟩

/-- C6: a sequential failure-tolerant group never halts early: every
step runs in declared order and every outcome, failing or not, is
recorded in the result map at the step's name. -/
theorem imperat_C6 {O E : Type} (succ : O → Bool) (err : O → Option E)
    (g : Group O) (σ : List Nat)
    (hpar : g.opts.parallel = false) (htol : g.opts.tolerate_failure = true) :
    g.execute succ err σ
      = (g.steps.flatMap (fun s => stepTrace s g.opts.callbacks),
         Except.ok (collectMap (pairsOf g))) ∧
    ∀ s ∈ g.steps, (∀ s' ∈ g.steps, s'.name = s.name → s' = s) →
      mapLookup (collectMap (pairsOf g)) s.name = some s.fut := by
  refine ⟨Group.execute_seqComplete succ err g σ ⟨hpar, Or.inl htol⟩, ?_⟩
  intro s hs hu
  rw [mapLookup_collectMap, pairsOf]
  exact lastVal_pairs_of_unique g.steps s hs hu

/-- C7: for every executed step, the callbacks bracket the step's
computation — every `BeforeStep` callback (in registration order)
before it is driven, every `AfterStep` callback (in registration order,
receiving the name and result) after — each firing exactly once per
registered occurrence per step; builder-level callbacks are appended
after each explicit group's own callbacks and hence fire, later, for
every step of every group. -/
theorem imperat_C7 {O V E : Type} [DecidableEq O] (succ : O → Bool)
    (err : O → Option E) (σs : Nat → List Nat) (b : ImperativeStepBuilder O V E)
    (hb : b.errors = [])
    (hdef : seqComplete succ b.default)
    (hgs : ∀ g ∈ b.groups, g.opts.parallel = false ∧
        (g.opts.tolerate_failure = true ∨ ∀ s ∈ g.steps, succ s.fut = true)) :
    (b.execute succ err σs).1
      = b.default.steps.flatMap (fun s => stepTrace s b.default.opts.callbacks)
        ++ b.groups.flatMap (fun g =>
             g.steps.flatMap (fun s =>
               stepTrace s (g.opts.callbacks ++ b.default.opts.callbacks))) ∧
    (∀ (s : Step O) (cbs : List CallbackKind),
       stepTrace s cbs
         = beforeEvents cbs s ++ [Event.run s.name] ++ afterEvents cbs s.name s.fut) ∧
    (∀ (s : Step O) (cbs : List CallbackKind) (i : Nat),
       (stepTrace s cbs).count (Event.before i s.name)
         = cbs.count (CallbackKind.BeforeStep i)) ∧
    (∀ (s : Step O) (cbs : List CallbackKind) (i : Nat),
       (stepTrace s cbs).count (Event.after i s.name s.fut)
         = cbs.count (CallbackKind.AfterStep i)) := by
  refine ⟨?_, fun s cbs => rfl, fun s cbs i => count_before_stepTrace s cbs i,
    fun s cbs i => count_after_stepTrace s cbs i⟩
  rw [ImperativeStepBuilder.execute, hb]
  simp only [List.getLast?_nil]
  rw [execGroups_seq_trace succ err σs _ 0 [] []]
  · simp only [List.flatMap_cons, List.nil_append, List.flatMap_map]
  · intro g' hg'
    rw [List.mem_cons] at hg'
    rcases hg' with h0 | hmem
    · rw [h0]
      exact hdef
    · rw [List.mem_map] at hmem
      obtain ⟨g0, hg0, hg0'⟩ := hmem
      obtain ⟨hp, hr⟩ := hgs g0 hg0
      rw [← hg0']
      exact ⟨hp, hr⟩

/-- C8: on a successful `execute`, the per-group maps merge in order
(default group first, then explicit groups in registration order) and
the value recorded for any name is the outcome of the step executed
last in that order — duplicates are resolved by last-write-wins,
never rejected. -/
theorem imperat_C8 {O V E : Type} (succ : O → Bool) (err : O → Option E)
    (σs : Nat → List Nat) (b : ImperativeStepBuilder O V E)
    (hb : b.errors = [])
    (hdef : completes succ b.default (σs 0))
    (hgs : ∀ j (hj : j < b.groups.length), completes succ b.groups[j] (σs (j + 1))) :
    ∃ M, (b.execute succ err σs).2 = Except.ok M ∧
      ∀ k, mapLookup M k
        = lastVal ((b.default :: b.groups).flatMap pairsOf) k := by
  rw [ImperativeStepBuilder.execute, hb]
  simp only [List.getLast?_nil]
  have hcomp : ∀ j (hj : j < (b.default ::
      b.groups.map (fun g => { g with opts :=
        { g.opts with callbacks := g.opts.callbacks ++ b.default.opts.callbacks } })).length),
      completes succ (b.default :: b.groups.map (fun g => { g with opts :=
        { g.opts with callbacks := g.opts.callbacks ++ b.default.opts.callbacks } }))[j]
        (σs (0 + j)) := by
    intro j hj
    cases j with
    | zero => simpa using hdef
    | succ j =>
      simp only [List.length_cons, List.length_map] at hj
      have hj' : j < b.groups.length := by omega
      have := hgs j hj'
      simp only [List.getElem_cons_succ, List.getElem_map]
      have harith : 0 + (j + 1) = j + 1 := by omega
      rw [harith]
      exact this
  obtain ⟨M, hM, hlook⟩ := execGroups_ok succ err σs _ 0 [] [] hcomp
  refine ⟨M, hM, fun k => ?_⟩
  rw [hlook k]
  simp only [List.flatten_nil, List.flatMap_cons, List.flatMap_map]
  rw [show lastVal ([] : List (String × O)) k = none from rfl]
  rw [Option.or_none]
  rfl

/-- C9 (amended): when a step inside an explicit group fails with a
cause during a non-tolerant sequential execution, the failure bubbles
to the top-level builder unchanged, as the `Step(name, cause)` error
naming the failing step — it is not wrapped in a `Group(name, cause)`
error (that variant is declared but never constructed). -/
theorem imperat_C9 {O V E : Type} (succ : O → Bool) (err : O → Option E)
    (σs : Nat → List Nat) (b : ImperativeStepBuilder O V E)
    (gexp : Group O) (pre : List (Step O)) (fl : Step O) (post : List (Step O)) (e : E)
    (hb : b.errors = [])
    (hdef : seqComplete succ b.default)
    (hgs : b.groups = [gexp])
    (hpar : gexp.opts.parallel = false) (htol : gexp.opts.tolerate_failure = false)
    (hsteps : gexp.steps = pre ++ fl :: post)
    (hpre : ∀ x ∈ pre, succ x.fut = true)
    (hfl : succ fl.fut = false) (herr : err fl.fut = some e) :
    (b.execute succ err σs).2 = Except.error (Error.Step fl.name e) := by
  rw [ImperativeStepBuilder.execute, hb]
  simp only [List.getLast?_nil]
  rw [hgs]
  simp only [List.map_cons, List.map_nil, execGroups]
  rw [Group.execute_seqComplete succ err b.default (σs 0) hdef]
  simp only
  set gexp' : Group O := { gexp with opts :=
    { gexp.opts with callbacks := gexp.opts.callbacks ++ b.default.opts.callbacks } } with hgexp'
  rw [Group.execute_fail succ err gexp' pre fl post (σs 1) hpar htol hsteps hpre hfl, herr]

/-- C10: in a sequential non-tolerant group, a failing step's
`AfterStep` callbacks are still all invoked with its name and outcome
before the error is returned, and `execute` returns no result map at
all (so the failing step's name appears in none). -/
theorem imperat_C10 {O E : Type} (succ : O → Bool) (err : O → Option E)
    (g : Group O) (pre : List (Step O)) (fl : Step O) (post : List (Step O))
    (σ : List Nat)
    (hpar : g.opts.parallel = false) (htol : g.opts.tolerate_failure = false)
    (hsteps : g.steps = pre ++ fl :: post)
    (hpre : ∀ x ∈ pre, succ x.fut = true) (hfl : succ fl.fut = false) :
    (∀ m, (g.execute succ err σ).2 ≠ Except.ok m) ∧
    (∀ i, CallbackKind.AfterStep i ∈ g.opts.callbacks →
      Event.after i fl.name fl.fut ∈ (g.execute succ err σ).1) ∧
    (g.execute succ err σ).1
      = (pre ++ [fl]).flatMap (fun s => stepTrace s g.opts.callbacks) := by
  have hmain := Group.execute_fail succ err g pre fl post σ hpar htol hsteps hpre hfl
  refine ⟨?_, ?_, by rw [hmain]⟩
  · intro m hm
    rw [hmain] at hm
    simp only at hm
    cases herr : err fl.fut <;> rw [herr] at hm <;> exact Except.noConfusion hm
  · intro i hi
    rw [hmain]
    simp only
    rw [List.mem_flatMap]
    refine ⟨fl, by simp, ?_⟩
    rw [stepTrace, exec_step]
    rw [List.append_assoc, List.mem_append]
    exact Or.inr (by
      rw [List.mem_append]
      exact Or.inr (after_mem_afterEvents g.opts.callbacks fl.name fl.fut i hi))

/-- C1 counterexample: with two accumulated errors, `execute` returns
the second (last) one, not the first. -/
theorem imperat_C1_counterexample :
    c1b.errors = [Error.AddDep 0, Error.DepResolution "s"] ∧
    (c1b.execute succB errB σempty).2 = Except.error (Error.DepResolution "s") ∧
    (Error.DepResolution "s" : Error Nat) ≠ Error.AddDep 0 := by
  refine ⟨rfl, rfl, by decide⟩

/-- C1 witness: the amended claim at the concrete two-error builder. -/
theorem imperat_C1_witness :
    c1b.errors = [Error.AddDep 0] ++ [Error.DepResolution "s"] ∧
    c1b.execute succB errB σempty = ([], Except.error (Error.DepResolution "s")) :=
  ⟨rfl, imperat_C1 succB errB σempty c1b [Error.AddDep 0] (Error.DepResolution "s") rfl⟩

/-- C2 witness: the failing-with-cause scenario at concrete steps. -/
theorem imperat_C2_witness :
    (g2w.opts.parallel = false ∧ g2w.opts.tolerate_failure = false ∧
     succR sa.fut = true ∧ succR sb.fut = false) ∧
    g2w.execute succR errR []
      = ([Event.run "a", Event.run "b"], Except.error (Error.Step "b" 5)) :=
  ⟨⟨rfl, rfl, rfl, rfl⟩,
   (@imperat_C2 (Except Nat Nat) Nat Nat succR errR g2w [sa] sb [sc] [] rfl rfl rfl
     (by intro x hx; rw [List.mem_singleton] at hx; rw [hx]; rfl) rfl).1⟩

/-- C3 witness: the two-step parallel group at completion order
`[1, 0]` (second step finishes first); the collected results are in
declared order, identical for both completion orders, and the
failing step is recorded rather than aborting. -/
theorem imperat_C3_witness :
    (g3w.opts.parallel = true ∧ ([1, 0] : List Nat).Perm (List.range g3w.steps.length)) ∧
    (g3w.execute succB errB [1, 0]).2 = Except.ok (collectMap (pairsOf g3w)) ∧
    (g3w.execute succB errB [1, 0]).2 = Except.ok [("p", true), ("q", false)] ∧
    (g3w.execute succB errB [0, 1]).2 = (g3w.execute succB errB [1, 0]).2 ∧
    ((GroupBuilder.init ⟨[]⟩ [] : GroupBuilder Bool Nat Nat).parallel).g.opts.tolerate_failure
      = true :=
  ⟨⟨rfl, by decide⟩,
   (@imperat_C3 Bool Nat Nat succB errB g3w [1, 0] rfl (by decide)).1,
   rfl, rfl, rfl⟩

/-- C4 witness: registering a step whose dependency type 1 is unbound
on a fresh builder. -/
theorem imperat_C4_witness :
    (ImperativeStepBuilder.init : ImperativeStepBuilder Bool Nat Nat).errors = [] ∧
    (ImperativeStepBuilder.init : ImperativeStepBuilder Bool Nat Nat).tm.get 1 = none ∧
    ((ImperativeStepBuilder.init : ImperativeStepBuilder Bool Nat Nat).add_step
        "s" [1] true).execute succB errB σempty
      = ([], Except.error (Error.DepResolution "s")) :=
  ⟨rfl, rfl,
   (imperat_C4 succB errB σempty ImperativeStepBuilder.init "s" [1] true rfl
     ⟨1, by decide, rfl⟩).2.2.1⟩

/-- C5 witness: rebinding type id 3 on a builder that already holds 7
there records `AddDep 3` and keeps 7 resolvable. -/
theorem imperat_C5_witness :
    (b5w.tm.get 3).isSome = true ∧
    ((b5w.add_dep 3 9).errors = b5w.errors ++ [Error.AddDep 3] ∧
     (b5w.add_dep 3 9).tm = b5w.tm ∧
     (b5w.add_dep 3 9).tm.get 3 = b5w.tm.get 3) ∧
    (b5w.add_dep 3 9).tm.get 3 = some 7 :=
  ⟨rfl, imperat_C5 b5w 3 9 rfl, rfl⟩

set_option maxRecDepth 100000 in
/-- C6 witness: the 50 alternating steps all run and exactly 25 true
and 25 false outcomes are retained. -/
theorem imperat_C6_witness :
    (c6g.opts.parallel = false ∧ c6g.opts.tolerate_failure = true) ∧
    c6g.execute succB errB []
      = (c6g.steps.flatMap (fun s => stepTrace s c6g.opts.callbacks),
         Except.ok (collectMap (pairsOf c6g))) ∧
    ((collectMap (pairsOf c6g)).filter (fun p => p.2 == true)).length = 25 ∧
    ((collectMap (pairsOf c6g)).filter (fun p => p.2 == false)).length = 25 ∧
    (collectMap (pairsOf c6g)).length = 50 :=
  ⟨⟨rfl, rfl⟩, (imperat_C6 succB errB c6g [] rfl rfl).1, by decide, by decide, by decide⟩

/-- C7 witness: builder callbacks 0/1 and group callback 2 on a
one-step default group and a one-step explicit group; the trace shows
the bracketing and that the builder's callbacks run after the group's
own. -/
theorem imperat_C7_witness :
    (b7w.errors = []) ∧
    (b7w.execute succB errB σempty).1
      = b7w.default.steps.flatMap (fun s => stepTrace s b7w.default.opts.callbacks)
        ++ b7w.groups.flatMap (fun g =>
             g.steps.flatMap (fun s =>
               stepTrace s (g.opts.callbacks ++ b7w.default.opts.callbacks))) ∧
    (b7w.execute succB errB σempty).1
      = [Event.before 0 "x", Event.run "x", Event.after 1 "x" true,
         Event.before 2 "y", Event.before 0 "y", Event.run "y",
         Event.after 1 "y" false] :=
  ⟨rfl,
   (imperat_C7 succB errB σempty b7w rfl ⟨rfl, Or.inr (by decide)⟩ (by decide)).1,
   rfl⟩

/-- C8 witness: the name "x" appears in the default group (true) and in
an explicit tolerant group (false); the merged value is the explicit
group's, the one executed later in merge order. -/
theorem imperat_C8_witness :
    b8w.errors = [] ∧
    (b8w.execute succB errB σempty).2 = Except.ok [("x", false)] ∧
    mapLookup [("x", false)] "x"
      = lastVal ((b8w.default :: b8w.groups).flatMap pairsOf) "x" := by
  refine ⟨rfl, rfl, ?_⟩
  obtain ⟨M, hM, hl⟩ := imperat_C8 succB errB σempty b8w rfl
    (Or.inr ⟨rfl, Or.inr (by decide)⟩)
    (by
      intro j hj
      have h1 : b8w.groups.length = 1 := rfl
      rw [h1] at hj
      have hj0 : j = 0 := Nat.lt_one_iff.mp hj
      subst hj0
      exact Or.inr ⟨rfl, Or.inl rfl⟩)
  have h2 : (b8w.execute succB errB σempty).2 = Except.ok [("x", false)] := rfl
  rw [hM] at h2
  have hMeq : M = [("x", false)] := Except.ok.inj h2
  rw [← hMeq]
  exact hl "x"

/-- C9 counterexample: the failure of a step inside an explicit group
surfaces as `Step("f", 7)`, not as a `Group` error. -/
theorem imperat_C9_counterexample :
    (b9w.execute succR errR σempty).2 = Except.error (Error.Step "f" 7) ∧
    isGroupError (b9w.execute succR errR σempty).2 = false :=
  ⟨rfl, rfl⟩

/-- C9 witness: the amended bubbling claim at the concrete builder. -/
theorem imperat_C9_witness :
    (b9w.errors = [] ∧ b9w.groups = [g9w] ∧ succR (Except.error 7) = false ∧
     errR (Except.error 7) = some 7) ∧
    (b9w.execute succR errR σempty).2 = Except.error (Error.Step "f" 7) :=
  ⟨⟨rfl, rfl, rfl, rfl⟩,
   imperat_C9 succR errR σempty b9w g9w [] { name := "f", fut := Except.error 7 } [] 7
     rfl
     ⟨rfl, Or.inr (by
       intro s hs
       rw [show b9w.default.steps = ([] : List (Step (Except Nat Nat))) from rfl] at hs
       exact (List.not_mem_nil s hs).elim)⟩
     rfl rfl rfl rfl (by intro x hx; cases hx) rfl rfl⟩

/-- C10 witness: the failing step "b" (no cause) still fires the
`AfterStep` callback 3 with its name and outcome, and `execute` returns
`UnknownStep` rather than any result map. -/
theorem imperat_C10_witness :
    (g10w.opts.parallel = false ∧ g10w.opts.tolerate_failure = false ∧
     succB false = false ∧ CallbackKind.AfterStep 3 ∈ g10w.opts.callbacks) ∧
    Event.after 3 "b" false ∈ (g10w.execute succB errB []).1 ∧
    (g10w.execute succB errB []).2 = Except.error (Error.UnknownStep "b") :=
  ⟨⟨rfl, rfl, rfl, by decide⟩,
   (imperat_C10 succB errB g10w [{ name := "a", fut := true }]
     { name := "b", fut := false } [] [] rfl rfl rfl (by decide) rfl).2.1 3 (by decide),
   rfl⟩

end Imperat
